import Mathlib

/-!
Verification of the Dynamic Node Size plugin core (src/main.js).

The development shallowly embeds the plugin's core logic:
* `isExcluded` (main.js lines 51-99): the exclusion evaluator;
* `calculateTotalConnectedNodes` (lines 102-129): the depth-bounded,
  cycle-safe reachability aggregator with a shared visited set;
* `updateNodeSize` / `updateNodeSizes` (lines 131-157): the size resolver
  and the batch sizing pass over a graph view;
* `loadSettings` (lines 159-169): merging stored settings over defaults.

Modelling conventions:
* JS numbers are modelled as `ℚ` (the code does no float-specific tricks);
  JS falsy-number checks (`x || d`, `if (manualSize)`) become `= 0` tests.
* A settings field that may be absent from the stored object is `Option`.
* The host application (Obsidian) is an abstract environment `Env`:
  `getFileByPath` models `this.app.vault.getFileByPath`, `getFileCache`
  models `this.app.metadataCache.getFileCache(file)?.frontmatter`,
  `resolvedLinks` models `this.app.metadataCache.resolvedLinks` (a missing
  entry is `[]`, as in `resolvedLinks[path] || {}`), and `regexTest`
  abstracts `new RegExp(pat).test(s)` (no claim depends on regex
  semantics).
* Frontmatter values are strings, numbers, or string arrays (`FmValue`);
  `node_size` is modelled as a numeric frontmatter field.
* The shared mutable visited `Set` is threaded explicitly: the traversal
  returns the count together with the updated visited list.
-/

/-- A resolved vault file: `path` is the full path (the node key),
`basename` is the file name without directory and extension. -/
structure TFile where
  path : String
  basename : String
deriving DecidableEq

/-- A frontmatter value: a string, a number, or an array of strings. -/
inductive FmValue where
  | str : String → FmValue
  | num : ℚ → FmValue
  | strs : List String → FmValue
deriving DecidableEq

/-- The host-application surface used by the plugin core. -/
structure Env where
  getFileByPath : String → Option TFile
  getFileCache : String → Option (List (String × FmValue))
  resolvedLinks : String → List String
  regexTest : String → String → Bool

/-- The plugin settings object.  Numeric fields are `Option` because the
stored data may lack them (`Object.assign` merging); `none` models an
absent key. -/
structure Settings where
  sizeMultiplier : Option ℚ := some 2
  multiplierScale : Option ℚ := some 1
  maxSize : Option ℚ := some 50
  maxDepth : Option Nat := some 3
  excludeFolders : List String := []
  excludeTitles : List String := []
  excludeTags : List String := []

/-- JS `x || d` for an optional number: an absent or zero (falsy) value
falls back to `d`. -/
def jsOr (v : Option ℚ) (d : ℚ) : ℚ :=
  match v with
  | none => d
  | some x => if x = 0 then d else x

/-- JS `x || d` for an optional natural number. -/
def jsOrNat (v : Option Nat) (d : Nat) : Nat :=
  match v with
  | none => d
  | some x => if x = 0 then d else x

/-- First frontmatter field with the given key, as in a JS property
lookup. -/
def lookupFm (fields : List (String × FmValue)) (k : String) : Option FmValue :=
  (fields.find? (fun kv => kv.1 == k)).map (fun kv => kv.2)

/-- JS `s.startsWith(pre)`, computed on character lists (Lean's byte-based
`String.startsWith` does not evaluate inside the kernel). -/
def jsStartsWith (s pre : String) : Bool :=
  pre.data.isPrefixOf s.data

/-- JS `s.endsWith(suf)`, computed on character lists. -/
def jsEndsWith (s suf : String) : Bool :=
  suf.data.reverse.isPrefixOf s.data.reverse

/-- JS `s.slice(n)`: the string without its first `n` characters. -/
def jsDrop (s : String) (n : Nat) : String :=
  ⟨s.data.drop n⟩

/-- The string without its last `n` characters (JS `s.slice(0, -n)`). -/
def jsDropRight (s : String) (n : Nat) : String :=
  ⟨s.data.take (s.data.length - n)⟩

/-- One leading `#` removed, as in `t.replace( /^#/ , "")`. -/
def stripHash (t : String) : String :=
  if jsStartsWith t "#" then jsDrop t 1 else t

/-- Separator characters of the tag-splitting regex `[, ]+`. -/
def isDelim (c : Char) : Bool := c = ',' || c = ' '

/-- Worker for `splitDelim`: `cur` is the token being built, `prevSep`
records whether the previous character was a separator (a run of
separators is a single delimiter). -/
def splitDelimAux : List Char → String → Bool → List String
  | [], cur, _ => [cur]
  | c :: cs, cur, prevSep =>
    if isDelim c then
      if prevSep then splitDelimAux cs cur true
      else cur :: splitDelimAux cs "" true
    else splitDelimAux cs (cur.push c) false

/-- JS `s.split( [, ]+ )`: split at maximal runs of commas and spaces,
keeping empty pieces at the boundaries. -/
def splitDelim (s : String) : List String :=
  splitDelimAux s.toList "" false

/-- The exclusion evaluator, from `isExcluded` (main.js lines 51-99).
The file argument is optional because the JS function checks `!file`
first.  Rules in source order: folder prefix (aligned on a path
separator), title (exact or `/regex/`), then frontmatter tags (the
declared `tags` field plus any other string field starting with `#`). -/
def isExcluded (env : Env) (settings : Settings) (file : Option TFile) : Bool :=
  match file with
  | none => false
  | some file =>
    let excludeFolders := settings.excludeFolders
    let excludeTitles := settings.excludeTitles
    let excludeTags := settings.excludeTags
    if excludeFolders.any (fun folder =>
        jsStartsWith file.path (if jsEndsWith folder "/" then folder else folder ++ "/")) then
      true
    else if excludeTitles.any (fun title =>
        if jsStartsWith title "/" && jsEndsWith title "/" then
          env.regexTest (jsDropRight (jsDrop title 1) 1) file.basename
        else file.basename == title) then
      true
    else if excludeTags.length > 0 then
      let tags : List String :=
        match env.getFileCache file.path with
        | some fields =>
          (match lookupFm fields "tags" with
           | some (FmValue.strs l) => l
           | some (FmValue.str s) =>
             if s = "" then [] else (splitDelim s).map stripHash
           | _ => []) ++
          fields.filterMap (fun kv =>
            if kv.1 == "tags" || kv.1 == "tag" then none
            else match kv.2 with
              | FmValue.str v => if jsStartsWith v "#" then some (stripHash v) else none
              | _ => none)
        | none => []
      excludeTags.any (fun tag => tags.contains tag)
    else false

/-- Fuel-indexed core of `calculateTotalConnectedNodes` (main.js lines
102-129).  The source carries `currentDepth` and checks
`currentDepth >= maxDepth` at each level; here `fuel` is
`maxDepth - currentDepth`, so that check is `fuel = 0` and the recursion
is structural.  The pair is (count, updated shared visited set). -/
def calcAux (env : Env) (settings : Settings) :
    Nat → String → List String → Nat × List String
  | fuel, nodeId, visited =>
    if visited.contains nodeId then (0, visited)
    else
      let visited := nodeId :: visited
      match env.getFileByPath nodeId with
      | none => (0, visited)
      | some file =>
        if isExcluded env settings (some file) then (0, visited)
        else
          match fuel with
          | 0 => (1, visited)
          | f + 1 =>
            (env.resolvedLinks file.path).foldl
              (fun acc linkedPath =>
                let r := calcAux env settings f linkedPath acc.2
                (acc.1 + r.1, r.2))
              (1, visited)

/-- `calculateTotalConnectedNodes(nodeId, visited, currentDepth)`: the
reachability aggregator, with the depth counter converted to fuel
(`maxDepth - currentDepth`, where `maxDepth = settings?.maxDepth || 3`). -/
def calculateTotalConnectedNodes (env : Env) (settings : Settings)
    (nodeId : String) (visited : List String) (currentDepth : Nat) :
    Nat × List String :=
  calcAux env settings (jsOrNat settings.maxDepth 3 - currentDepth) nodeId visited

/-- A node of a rendered graph view: `id` is the file path,
`weight` the mutable display size. -/
structure GraphNode where
  id : String
  weight : ℚ
deriving DecidableEq

/-- The numeric `node_size` frontmatter field of a file, if present:
`fileCache?.frontmatter?.node_size`. -/
def nodeSizeOf (env : Env) (file : TFile) : Option ℚ :=
  match env.getFileCache file.path with
  | none => none
  | some fields =>
    match lookupFm fields "node_size" with
    | some (FmValue.num q) => some q
    | _ => none

/-- The per-node body of `updateNodeSizes` (main.js lines 139-155):
skip a missing or excluded file, honour a truthy manual `node_size`,
otherwise scale and clamp the computed connectivity weight. -/
def updateNodeSize (env : Env) (settings : Settings) (node : GraphNode) : GraphNode :=
  let multiplier := jsOr settings.sizeMultiplier 1
  let multiplierScale := jsOr settings.multiplierScale 1
  let maxSize := jsOr settings.maxSize 50
  match env.getFileByPath node.id with
  | none => node
  | some file =>
    if isExcluded env settings (some file) then node
    else
      let computed : ℚ :=
        let totalConnected := (calculateTotalConnectedNodes env settings node.id [] 0).1
        let calculatedSize := min ((totalConnected : ℚ) * multiplier * multiplierScale) maxSize
        max calculatedSize 1
      match nodeSizeOf env file with
      | some manualSize =>
        if manualSize = 0 then { node with weight := computed }
        else { node with weight := manualSize }
      | none => { node with weight := computed }

/-- One batch sizing pass (`updateNodeSizes`, main.js lines 131-157):
`renderer.nodes.forEach(...)` updating each node's weight in place. -/
def updateNodeSizes (env : Env) (settings : Settings)
    (nodes : List GraphNode) : List GraphNode :=
  nodes.map (updateNodeSize env settings)

/-- `loadSettings` (main.js lines 159-169): `Object.assign` of the stored
data over the hard-coded defaults — a stored key wins, a missing key
inherits the default. -/
def loadSettings (data : Settings) : Settings where
  sizeMultiplier := data.sizeMultiplier.or (some 2)
  multiplierScale := data.multiplierScale.or (some 1)
  maxSize := data.maxSize.or (some 50)
  maxDepth := data.maxDepth.or (some 3)
  excludeFolders := data.excludeFolders
  excludeTitles := data.excludeTitles
  excludeTags := data.excludeTags

/-- The computed (non-manual) size the resolver assigns to the node with
the given id: the connectivity weight scaled by the two multipliers,
capped at `maxSize`, floored at 1. -/
def computedSize (env : Env) (settings : Settings) (id : String) : ℚ :=
  max
    (min (((calculateTotalConnectedNodes env settings id [] 0).1 : ℚ) *
        jsOr settings.sizeMultiplier 1 * jsOr settings.multiplierScale 1)
      (jsOr settings.maxSize 50))
    1

/-! ### Specification-side notions used to state the claims -/

/-- One directed link step in the resolved-link graph. -/
def StepTo (env : Env) (v w : String) : Prop := w ∈ env.resolvedLinks v

/-- The link graph is acyclic: no node reaches itself in one or more
steps. -/
def Acyclic (env : Env) : Prop := ∀ v, ¬ Relation.TransGen (StepTo env) v v

/-- The nodes reachable from `root` within `n` hops along `links`
(a breadth-first closure; the list at stage `n + 1` is deduplicated, so
its `toFinset.card` is the number of distinct such nodes). -/
def reachWithin (links : String → List String) (root : String) : Nat → List String
  | 0 => [root]
  | n + 1 =>
    let prev := reachWithin links root n
    (prev ++ prev.flatMap links).dedup

/-- The environment is path-coherent: a file resolved by a path carries
that path (true of the host application; needed to relate the traversal,
which reads `resolvedLinks[file.path]`, to the link graph keyed by node
id). -/
def PathCoherent (env : Env) : Prop :=
  ∀ p f, env.getFileByPath p = some f → f.path = p

/-- The outgoing links of a node as the traversal reads them: the
resolved links of its file's path; a missing file has none. -/
def nodeLinks (env : Env) (v : String) : List String :=
  match env.getFileByPath v with
  | some file => env.resolvedLinks file.path
  | none => []

/-- A node the traversal counts and descends through: its file exists and
is not excluded. -/
def goodNode (env : Env) (settings : Settings) (v : String) : Bool :=
  match env.getFileByPath v with
  | none => false
  | some file => !(isExcluded env settings (some file))

/-- Walks of the traversal: `AvoidPath env settings V v x` holds when
there is a walk from `v` to `x` whose nodes all avoid `V` and whose nodes
before `x` all exist and are unexcluded (the traversal only descends
through such nodes). -/
inductive AvoidPath (env : Env) (settings : Settings) (V : List String) :
    String → String → Prop where
  | refl (v : String) (hv : v ∉ V) : AvoidPath env settings V v v
  | cons (v w x : String) (hv : v ∉ V) (hg : goodNode env settings v = true)
      (hw : w ∈ nodeLinks env v) (h : AvoidPath env settings V w x) :
      AvoidPath env settings V v x

/-- Modelled from the amended tag rule of claim C8: the node's effective
tag set is the declared `tags` field taken verbatim when it is an array,
or split on comma/space runs with a leading `#` stripped from each piece
when it is a string, plus every other frontmatter field except the keys
`tags` and `tag` whose value is a string starting with `#`, with the `#`
stripped. -/
def effectiveTags (env : Env) (file : TFile) : List String :=
  match env.getFileCache file.path with
  | none => []
  | some fields =>
    (match lookupFm fields "tags" with
     | some (FmValue.strs l) => l
     | some (FmValue.str s) =>
       if s = "" then [] else (splitDelim s).map stripHash
     | _ => []) ++
    fields.filterMap (fun kv =>
      if kv.1 == "tags" || kv.1 == "tag" then none
      else match kv.2 with
        | FmValue.str v => if jsStartsWith v "#" then some (stripHash v) else none
        | _ => none)

/-! ### Concrete fixtures used by counterexamples and witnesses -/

/-- Test-graph environment: every key in `keys` resolves to a file whose
basename equals its path; no frontmatter anywhere. -/
def envOfKeys (keys : List String) (links : String → List String) : Env where
  getFileByPath := fun p => if keys.contains p then some ⟨p, p⟩ else none
  getFileCache := fun _ => none
  resolvedLinks := links
  regexTest := fun _ _ => false

/-- A single isolated note. -/
def envSingle : Env := envOfKeys ["a.md"] (fun _ => [])

/-- Keys of the diamond graph `root → A, root → B, A → B, B → C`. -/
def diamondKeys : List String := ["root", "A", "B", "C"]

/-- Links of the diamond graph, with `A` listed before `B` on `root`. -/
def diamondLinks : String → List String := fun p =>
  if p = "root" then ["A", "B"]
  else if p = "A" then ["B"]
  else if p = "B" then ["C"]
  else []

/-- The diamond graph (acyclic). -/
def diamondEnv : Env := envOfKeys diamondKeys diamondLinks

/-- The diamond graph with the links of `root` iterated in the other
order (`B` before `A`). -/
def diamondEnvSwapped : Env :=
  envOfKeys diamondKeys (fun p => if p = "root" then ["B", "A"] else diamondLinks p)

/-- The diamond graph with a back edge `C → root`, giving a cycle through
the root. -/
def cycleEnv : Env :=
  envOfKeys diamondKeys (fun p => if p = "C" then ["root"] else diamondLinks p)

/-- Settings differing from the defaults only in `maxDepth`. -/
def settingsDepth (n : Nat) : Settings := { maxDepth := some n }

/-- Settings with a `maxSize` below the size floor of 1. -/
def settingsHalf : Settings :=
  { sizeMultiplier := some 1, multiplierScale := some 1, maxSize := some (1/2) }

/-- Settings excluding the folder `Archive`. -/
def settingsArchive : Settings := { excludeFolders := ["Archive"] }

/-- Settings with a small `maxSize` of 5. -/
def settingsMaxFive : Settings := { maxSize := some 5 }

/-- Settings excluding the tag `foo`. -/
def settingsTagFoo : Settings := { excludeTags := ["foo"] }

/-- Environment with two notes whose frontmatter sets `node_size: 10`;
one of them lives in the `Archive` folder. -/
def envManual : Env where
  getFileByPath := fun p =>
    if p = "Archive/x.md" then some ⟨"Archive/x.md", "x"⟩
    else if p = "n.md" then some ⟨"n.md", "n"⟩ else none
  getFileCache := fun _ => some [("node_size", FmValue.num 10)]
  resolvedLinks := fun _ => []
  regexTest := fun _ _ => false

/-- Environment with one note whose frontmatter declares the tag array
`["#foo"]`. -/
def envTags : Env where
  getFileByPath := fun p => if p = "n.md" then some ⟨"n.md", "n"⟩ else none
  getFileCache := fun p =>
    if p = "n.md" then some [("tags", FmValue.strs ["#foo"])] else none
  resolvedLinks := fun _ => []
  regexTest := fun _ _ => false

/-! ### General lemmas about the embedding -/

/-- Files produced by `envOfKeys` carry the path they were looked up by. -/
theorem envOfKeys_coherent (keys : List String) (links : String → List String) :
    PathCoherent (envOfKeys keys links) := by
  intro p f h
  simp only [envOfKeys] at h
  split at h
  · cases h; rfl
  · cases h

/-- The exclusion evaluator reads only the three exclusion lists of the
settings. -/
theorem isExcluded_settings_congr (env : Env) (s₁ s₂ : Settings) (file : Option TFile)
    (hF : s₁.excludeFolders = s₂.excludeFolders)
    (hT : s₁.excludeTitles = s₂.excludeTitles)
    (hG : s₁.excludeTags = s₂.excludeTags) :
    isExcluded env s₁ file = isExcluded env s₂ file := by
  unfold isExcluded
  cases file with
  | none => rfl
  | some f => rw [hF, hT, hG]

/-- The traversal core reads the settings only through the exclusion
evaluator. -/
theorem calcAux_settings_congr (env : Env) (s₁ s₂ : Settings)
    (hex : ∀ f, isExcluded env s₁ f = isExcluded env s₂ f) (fuel : Nat) :
    calcAux env s₁ fuel = calcAux env s₂ fuel := by
  induction fuel with
  | zero =>
    funext nodeId visited
    unfold calcAux
    simp only [hex]
  | succ f ih =>
    funext nodeId visited
    unfold calcAux
    simp only [hex, ih]

/-- The size resolver depends on the settings only through the effective
(fallback-resolved) numeric values and the exclusion lists. -/
theorem updateNodeSize_settings_congr (env : Env) (s₁ s₂ : Settings)
    (h1 : jsOr s₁.sizeMultiplier 1 = jsOr s₂.sizeMultiplier 1)
    (h2 : jsOr s₁.multiplierScale 1 = jsOr s₂.multiplierScale 1)
    (h3 : jsOr s₁.maxSize 50 = jsOr s₂.maxSize 50)
    (h4 : jsOrNat s₁.maxDepth 3 = jsOrNat s₂.maxDepth 3)
    (hF : s₁.excludeFolders = s₂.excludeFolders)
    (hT : s₁.excludeTitles = s₂.excludeTitles)
    (hG : s₁.excludeTags = s₂.excludeTags)
    (node : GraphNode) :
    updateNodeSize env s₁ node = updateNodeSize env s₂ node := by
  have hex : ∀ f, isExcluded env s₁ f = isExcluded env s₂ f := fun f =>
    isExcluded_settings_congr env s₁ s₂ f hF hT hG
  unfold updateNodeSize calculateTotalConnectedNodes
  simp only [h1, h2, h3, h4, hex, calcAux_settings_congr env s₁ s₂ hex]

/-- The resolver never changes a node's id. -/
theorem updateNodeSize_id_eq (env : Env) (settings : Settings) (n : GraphNode) :
    (updateNodeSize env settings n).id = n.id := by
  unfold updateNodeSize
  cases hf : env.getFileByPath n.id with
  | none => rfl
  | some file =>
    by_cases he : isExcluded env settings (some file) = true
    · simp [he]
    · simp only [Bool.not_eq_true] at he
      simp only [he, Bool.false_eq_true, if_false]
      cases hs : nodeSizeOf env file with
      | none => rfl
      | some q =>
        by_cases hq : q = 0
        · simp [hq]
        · simp [hq]

/-- Branch analysis of the resolver: for a given id, either every node
with that id is left unchanged (missing or excluded file), or every node
with that id gets the same weight (manual or computed), independent of
its current weight. -/
theorem updateNodeSize_cases (env : Env) (settings : Settings) (n : GraphNode) :
    (∀ m : GraphNode, m.id = n.id → updateNodeSize env settings m = m) ∨
    (∃ q : ℚ, ∀ m : GraphNode, m.id = n.id →
      updateNodeSize env settings m = { m with weight := q }) := by
  cases hf : env.getFileByPath n.id with
  | none =>
    left
    intro m hm
    unfold updateNodeSize
    rw [hm, hf]
  | some file =>
    by_cases he : isExcluded env settings (some file) = true
    · left
      intro m hm
      unfold updateNodeSize
      rw [hm, hf]
      simp only [he, if_true]
    · rw [Bool.not_eq_true] at he
      cases hs : nodeSizeOf env file with
      | none =>
        right
        refine ⟨computedSize env settings n.id, fun m hm => ?_⟩
        unfold updateNodeSize computedSize
        rw [hm, hf]
        simp only [he, hs, if_false, Bool.false_eq_true]
      | some q =>
        by_cases hq : q = 0
        · right
          refine ⟨computedSize env settings n.id, fun m hm => ?_⟩
          unfold updateNodeSize computedSize
          rw [hm, hf]
          simp only [he, hs, hq, if_true, if_false, Bool.false_eq_true]
        · right
          refine ⟨q, fun m hm => ?_⟩
          unfold updateNodeSize
          rw [hm, hf]
          simp only [he, hs, hq, if_true, if_false, Bool.false_eq_true]

/-! ### Claim C7 — `isExcluded` on a missing node -/

/-- C7 counterexample: at a concrete environment and settings,
`isExcluded` applied to a missing node reference returns `false`,
refuting the claim that it returns `true`. -/
theorem c7_counterexample :
    ¬ (isExcluded envSingle { } none = true) := by decide

/-- C7 (amended): `isExcluded` returns `false` when the node argument is
missing; existence is checked separately by every caller (`!file ||
this.isExcluded(file)`), so a missing node is skipped, not excluded. -/
theorem c7_theorem (env : Env) (settings : Settings) :
    isExcluded env settings none = false := rfl

/-! ### Claim C6 — excluded or missing nodes are left untouched -/

/-- C6: a node whose file is missing or excluded is never assigned a
size: the per-node resolver returns it unchanged, and one batch pass over
any view containing it returns its entry unchanged. -/
theorem c6_theorem (env : Env) (settings : Settings) (node : GraphNode)
    (h : env.getFileByPath node.id = none ∨
      isExcluded env settings (env.getFileByPath node.id) = true) :
    updateNodeSize env settings node = node ∧
    ∀ pre post : List GraphNode,
      updateNodeSizes env settings (pre ++ node :: post) =
        updateNodeSizes env settings pre ++
          node :: updateNodeSizes env settings post := by
  have hone : updateNodeSize env settings node = node := by
    unfold updateNodeSize
    rcases h with h | h
    · rw [h]
    · cases hf : env.getFileByPath node.id with
      | none => rfl
      | some file =>
        rw [hf] at h
        simp [h]
  refine ⟨hone, fun pre post => ?_⟩
  simp [updateNodeSizes, hone]

/-- C6 witness: the `Archive/x.md` note is excluded by the folder rule,
and a pass over a view containing it (current weight 7) leaves its entry
at weight 7. -/
theorem c6_witness :
    (envManual.getFileByPath "Archive/x.md" = none ∨
      isExcluded envManual settingsArchive (envManual.getFileByPath "Archive/x.md") = true) ∧
    (updateNodeSize envManual settingsArchive ⟨"Archive/x.md", 7⟩ = ⟨"Archive/x.md", 7⟩ ∧
      ∀ pre post : List GraphNode,
        updateNodeSizes envManual settingsArchive (pre ++ ⟨"Archive/x.md", 7⟩ :: post) =
          updateNodeSizes envManual settingsArchive pre ++
            ⟨"Archive/x.md", 7⟩ :: updateNodeSizes envManual settingsArchive post) :=
  ⟨by decide, c6_theorem envManual settingsArchive ⟨"Archive/x.md", 7⟩ (by decide)⟩

/-! ### Claim C9 — the batch pass is idempotent -/

/-- C9: one batch sizing pass is idempotent — with the same environment
(link graph and metadata) and configuration, a repeat run reproduces the
first run's assignments exactly. -/
theorem c9_theorem (env : Env) (settings : Settings) (nodes : List GraphNode) :
    updateNodeSizes env settings (updateNodeSizes env settings nodes) =
      updateNodeSizes env settings nodes := by
  unfold updateNodeSizes
  rw [List.map_map]
  refine List.map_congr_left ?_
  intro n _
  show updateNodeSize env settings (updateNodeSize env settings n) =
    updateNodeSize env settings n
  rcases updateNodeSize_cases env settings n with hall | ⟨q, hall⟩
  · have h1 := hall n rfl
    rw [h1]
    exact h1
  · have hn := hall n rfl
    have hid : (updateNodeSize env settings n).id = n.id :=
      updateNodeSize_id_eq env settings n
    rw [hall (updateNodeSize env settings n) hid, hn]

/-! ### Claim C4 — manual `node_size` override -/

/-- C4 counterexample: the note `Archive/x.md` carries the manual size 10,
yet with `excludeFolders = ["Archive"]` the resolver leaves its weight at
its prior value 7 — the exclusion check runs before the manual-size
check, so a manual size is not honoured for every configuration. -/
theorem c4_counterexample :
    nodeSizeOf envManual ⟨"Archive/x.md", "x"⟩ = some 10 ∧
    (updateNodeSize envManual settingsArchive ⟨"Archive/x.md", 7⟩).weight = 7 ∧
    (7 : ℚ) ≠ 10 := by
  refine ⟨rfl, ?_, by norm_num⟩
  have h := (c6_theorem envManual settingsArchive ⟨"Archive/x.md", 7⟩ (by decide)).1
  rw [h]

/-- C4 (amended): for a node whose file exists and is **not excluded**, a
truthy manual `node_size` is assigned verbatim — no multiplier, scale or
`maxSize` clamp is applied, whatever the configuration values and the
node's connectivity. -/
theorem c4_theorem (env : Env) (settings : Settings) (node : GraphNode)
    (file : TFile) (q : ℚ)
    (hf : env.getFileByPath node.id = some file)
    (he : isExcluded env settings (some file) = false)
    (hq : nodeSizeOf env file = some q) (hq0 : q ≠ 0) :
    (updateNodeSize env settings node).weight = q := by
  unfold updateNodeSize
  rw [hf]
  simp [he, hq, hq0]

/-- C4 witness: the note `n.md` has manual size 10 and `maxSize` is 5,
yet its resolved weight is 10, unclamped. -/
theorem c4_witness :
    envManual.getFileByPath "n.md" = some ⟨"n.md", "n"⟩ ∧
    isExcluded envManual settingsMaxFive (some ⟨"n.md", "n"⟩) = false ∧
    nodeSizeOf envManual ⟨"n.md", "n"⟩ = some 10 ∧ (10 : ℚ) ≠ 0 ∧
    jsOr settingsMaxFive.maxSize 50 = 5 ∧
    (updateNodeSize envManual settingsMaxFive ⟨"n.md", 3⟩).weight = 10 :=
  ⟨rfl, by decide, rfl, by norm_num, by norm_num [jsOr, settingsMaxFive],
   c4_theorem envManual settingsMaxFive ⟨"n.md", 3⟩ ⟨"n.md", "n"⟩ 10 rfl (by decide)
     rfl (by norm_num)⟩

/-! ### Claim C5 — bounds on the computed size -/

/-- C5 counterexample: with `maxSize = 1/2` (positive, but below the size
floor), an isolated unexcluded note resolves to weight 1, which exceeds
`maxSize` — so `final ≤ maxSize` does not hold for every configuration. -/
theorem c5_counterexample :
    envSingle.getFileByPath "a.md" = some ⟨"a.md", "a.md"⟩ ∧
    isExcluded envSingle settingsHalf (some ⟨"a.md", "a.md"⟩) = false ∧
    nodeSizeOf envSingle ⟨"a.md", "a.md"⟩ = none ∧
    (updateNodeSize envSingle settingsHalf ⟨"a.md", 0⟩).weight = 1 ∧
    ¬ ((updateNodeSize envSingle settingsHalf ⟨"a.md", 0⟩).weight ≤
        jsOr settingsHalf.maxSize 50) := by
  have hw : (updateNodeSize envSingle settingsHalf ⟨"a.md", 0⟩).weight = 1 := by
    have hfile : envSingle.getFileByPath "a.md" = some ⟨"a.md", "a.md"⟩ := rfl
    have hexcl : isExcluded envSingle settingsHalf (some ⟨"a.md", "a.md"⟩) = false := rfl
    have hsize : nodeSizeOf envSingle ⟨"a.md", "a.md"⟩ = none := rfl
    have htotal : (calculateTotalConnectedNodes envSingle settingsHalf "a.md" [] 0).1 = 1 := rfl
    simp only [updateNodeSize, hfile, hexcl, hsize, htotal]
    norm_num [jsOr, settingsHalf, min_def, max_def]
  refine ⟨rfl, rfl, rfl, hw, ?_⟩
  rw [hw]
  norm_num [jsOr, settingsHalf]

/-- C5 (amended): for an existing, unexcluded, not manually overridden
node, the resolved size satisfies `1 ≤ final` for **every**
configuration, and `final ≤ maxSize` whenever the effective `maxSize` is
at least 1 (the size floor is applied after the cap, so a `maxSize`
below 1 is overridden by the floor). -/
theorem c5_theorem (env : Env) (settings : Settings) (node : GraphNode)
    (file : TFile)
    (hf : env.getFileByPath node.id = some file)
    (he : isExcluded env settings (some file) = false)
    (hm : nodeSizeOf env file = none ∨ nodeSizeOf env file = some 0) :
    1 ≤ (updateNodeSize env settings node).weight ∧
    (1 ≤ jsOr settings.maxSize 50 →
      (updateNodeSize env settings node).weight ≤ jsOr settings.maxSize 50) := by
  have hw : (updateNodeSize env settings node).weight =
      computedSize env settings node.id := by
    unfold updateNodeSize computedSize
    rw [hf]
    rcases hm with hm | hm <;> simp [he, hm]
  rw [hw]
  unfold computedSize
  exact ⟨le_max_right _ _, fun hmax => max_le (min_le_right _ _) hmax⟩

/-- C5 witness: an isolated unexcluded note with the default
configuration: its weight is at least 1, and at most the effective
`maxSize` 50 (which is at least 1). -/
theorem c5_witness :
    envSingle.getFileByPath "a.md" = some ⟨"a.md", "a.md"⟩ ∧
    isExcluded envSingle { } (some ⟨"a.md", "a.md"⟩) = false ∧
    nodeSizeOf envSingle ⟨"a.md", "a.md"⟩ = none ∧
    (1 ≤ (updateNodeSize envSingle { } ⟨"a.md", 0⟩).weight ∧
      (1 ≤ jsOr ({ } : Settings).maxSize 50 →
        (updateNodeSize envSingle { } ⟨"a.md", 0⟩).weight ≤
          jsOr ({ } : Settings).maxSize 50)) :=
  ⟨rfl, rfl, rfl,
   c5_theorem envSingle { } ⟨"a.md", 0⟩ ⟨"a.md", "a.md"⟩ rfl rfl (Or.inl rfl)⟩

/-! ### Claim C8 — the tag exclusion rule -/

/-- C8 counterexample: the note `n.md` declares the tag **array**
`["#foo"]` and the exclusion set is `["foo"]`.  The claimed effective tag
set strips the leading `#` from every declared entry (so it would contain
`foo` and intersect), yet `isExcluded` returns `false`: the code strips
`#` only in the delimited-string branch and uses array entries verbatim. -/
theorem c8_counterexample :
    "foo" ∈ settingsTagFoo.excludeTags ∧
    lookupFm [("tags", FmValue.strs ["#foo"])] "tags" = some (FmValue.strs ["#foo"]) ∧
    stripHash "#foo" = "foo" ∧
    isExcluded envTags settingsTagFoo (some ⟨"n.md", "n"⟩) = false := by
  refine ⟨by decide, by decide, by decide, by decide⟩

/-- C8 (amended): when the folder and title exclusion lists are empty,
`isExcluded` returns `true` exactly when the configured tag set meets the
node's effective tag set, where the effective tag set is the declared
`tags` field taken **verbatim** when it is an array, or comma/space-split
with a leading `#` stripped from each piece when it is a string, plus
every other frontmatter field except the keys `tags` and `tag` whose
string value starts with `#`, with the `#` stripped. -/
theorem c8_theorem (env : Env) (settings : Settings) (file : TFile)
    (hF : settings.excludeFolders = []) (hT : settings.excludeTitles = []) :
    isExcluded env settings (some file) = true ↔
      ∃ t ∈ settings.excludeTags, t ∈ effectiveTags env file := by
  unfold isExcluded effectiveTags
  rw [hF, hT]
  cases hTags : settings.excludeTags with
  | nil => simp
  | cons t ts =>
    simp only [List.any_nil, Bool.false_eq_true, if_false, List.length_cons,
      Nat.zero_lt_succ, if_pos, gt_iff_lt]
    cases hc : env.getFileCache file.path with
    | none =>
      simp [List.any_eq_true]
    | some fields =>
      simp [List.any_eq_true, List.elem_iff]

/-- C8 witness: the characterization instantiated at the tag-array note
(where both sides are false: the verbatim array entry `#foo` differs from
the configured `foo`). -/
theorem c8_witness :
    settingsTagFoo.excludeFolders = [] ∧ settingsTagFoo.excludeTitles = [] ∧
    (isExcluded envTags settingsTagFoo (some ⟨"n.md", "n"⟩) = true ↔
      ∃ t ∈ settingsTagFoo.excludeTags, t ∈ effectiveTags envTags ⟨"n.md", "n"⟩) :=
  ⟨rfl, rfl, c8_theorem envTags settingsTagFoo ⟨"n.md", "n"⟩ rfl rfl⟩

/-! ### Claim C10 — point-of-use fallbacks for falsy settings -/

/-- C10: an absent or falsy (0) numeric setting is replaced at the point
of use by the hard-coded fallbacks — `sizeMultiplier` by 1 (not the
stored default 2), `multiplierScale` by 1, `maxSize` by 50, `maxDepth` by
3.  A stored `sizeMultiplier` of 0 survives `loadSettings` (which
defaults only missing keys to 2) and then yields sizes computed with
multiplier 1, not 2 and not 0. -/
theorem c10_theorem :
    (∀ (env : Env) (settings : Settings) (node : GraphNode),
      updateNodeSize env { settings with sizeMultiplier := some 0 } node =
        updateNodeSize env { settings with sizeMultiplier := some 1 } node ∧
      updateNodeSize env { settings with sizeMultiplier := none } node =
        updateNodeSize env { settings with sizeMultiplier := some 1 } node ∧
      updateNodeSize env { settings with multiplierScale := some 0 } node =
        updateNodeSize env { settings with multiplierScale := some 1 } node ∧
      updateNodeSize env { settings with multiplierScale := none } node =
        updateNodeSize env { settings with multiplierScale := some 1 } node ∧
      updateNodeSize env { settings with maxSize := some 0 } node =
        updateNodeSize env { settings with maxSize := some 50 } node ∧
      updateNodeSize env { settings with maxSize := none } node =
        updateNodeSize env { settings with maxSize := some 50 } node ∧
      updateNodeSize env { settings with maxDepth := some 0 } node =
        updateNodeSize env { settings with maxDepth := some 3 } node ∧
      updateNodeSize env { settings with maxDepth := none } node =
        updateNodeSize env { settings with maxDepth := some 3 } node) ∧
    (loadSettings { sizeMultiplier := some 0 }).sizeMultiplier = some 0 ∧
    (loadSettings { sizeMultiplier := none }).sizeMultiplier = some 2 ∧
    (updateNodeSize envSingle { sizeMultiplier := some 0 } ⟨"a.md", 0⟩).weight = 1 ∧
    (updateNodeSize envSingle { sizeMultiplier := some 2 } ⟨"a.md", 0⟩).weight = 2 := by
  refine ⟨fun env settings node => ?_, rfl, rfl, ?_, ?_⟩
  · refine ⟨?_, ?_, ?_, ?_, ?_, ?_, ?_, ?_⟩ <;>
      apply updateNodeSize_settings_congr <;> rfl
  · have hfile : envSingle.getFileByPath "a.md" = some ⟨"a.md", "a.md"⟩ := rfl
    have hexcl : isExcluded envSingle { sizeMultiplier := some 0 }
        (some ⟨"a.md", "a.md"⟩) = false := rfl
    have hsize : nodeSizeOf envSingle ⟨"a.md", "a.md"⟩ = none := rfl
    have htotal : (calculateTotalConnectedNodes envSingle
        { sizeMultiplier := some 0 } "a.md" [] 0).1 = 1 := rfl
    simp only [updateNodeSize, hfile, hexcl, hsize, htotal]
    norm_num [jsOr, min_def, max_def]
  · have hfile : envSingle.getFileByPath "a.md" = some ⟨"a.md", "a.md"⟩ := rfl
    have hexcl : isExcluded envSingle { sizeMultiplier := some 2 }
        (some ⟨"a.md", "a.md"⟩) = false := rfl
    have hsize : nodeSizeOf envSingle ⟨"a.md", "a.md"⟩ = none := rfl
    have htotal : (calculateTotalConnectedNodes envSingle
        { sizeMultiplier := some 2 } "a.md" [] 0).1 = 1 := rfl
    simp only [updateNodeSize, hfile, hexcl, hsize, htotal]
    norm_num [jsOr, min_def, max_def]

/-! ### Unfolding lemmas for the traversal -/

/-- A node already in the shared visited set contributes 0 and leaves the
set unchanged. -/
theorem calcAux_visited (env : Env) (settings : Settings) (fuel : Nat)
    (v : String) (V : List String) (h : v ∈ V) :
    calcAux env settings fuel v V = (0, V) := by
  unfold calcAux
  rw [if_pos (List.elem_iff.mpr h)]

/-- An unvisited node whose file does not resolve is marked and
contributes 0. -/
theorem calcAux_missing (env : Env) (settings : Settings) (fuel : Nat)
    (v : String) (V : List String) (h : ¬ v ∈ V)
    (hf : env.getFileByPath v = none) :
    calcAux env settings fuel v V = (0, v :: V) := by
  unfold calcAux
  rw [if_neg (fun hc => h (List.elem_iff.mp hc)), hf]

/-- An unvisited, excluded node is marked and contributes 0. -/
theorem calcAux_excluded (env : Env) (settings : Settings) (fuel : Nat)
    (v : String) (V : List String) (file : TFile) (h : ¬ v ∈ V)
    (hf : env.getFileByPath v = some file)
    (he : isExcluded env settings (some file) = true) :
    calcAux env settings fuel v V = (0, v :: V) := by
  unfold calcAux
  rw [if_neg (fun hc => h (List.elem_iff.mp hc)), hf]
  simp [he]

/-- An unvisited, good node with no fuel left (the `currentDepth >=
maxDepth` cap) is counted but not expanded. -/
theorem calcAux_cap (env : Env) (settings : Settings)
    (v : String) (V : List String) (file : TFile) (h : ¬ v ∈ V)
    (hf : env.getFileByPath v = some file)
    (he : isExcluded env settings (some file) = false) :
    calcAux env settings 0 v V = (1, v :: V) := by
  unfold calcAux
  rw [if_neg (fun hc => h (List.elem_iff.mp hc)), hf]
  simp [he]

/-- An unvisited, good node with fuel left accumulates over its outgoing
links, starting from (1, itself marked). -/
theorem calcAux_go (env : Env) (settings : Settings) (f : Nat)
    (v : String) (V : List String) (file : TFile) (h : ¬ v ∈ V)
    (hf : env.getFileByPath v = some file)
    (he : isExcluded env settings (some file) = false) :
    calcAux env settings (f + 1) v V =
      (env.resolvedLinks file.path).foldl
        (fun acc linkedPath =>
          let r := calcAux env settings f linkedPath acc.2
          (acc.1 + r.1, r.2))
        (1, v :: V) := by
  conv_lhs => rw [calcAux]
  rw [if_neg (fun hc => h (List.elem_iff.mp hc)), hf]
  simp only [he, Bool.false_eq_true, if_false]

/-- `goodNode` through a resolved file. -/
theorem goodNode_some (env : Env) (settings : Settings) (v : String) (file : TFile)
    (hf : env.getFileByPath v = some file) :
    goodNode env settings v = !(isExcluded env settings (some file)) := by
  unfold goodNode
  rw [hf]

/-- `goodNode` of an unresolved node is false. -/
theorem goodNode_none (env : Env) (settings : Settings) (v : String)
    (hf : env.getFileByPath v = none) :
    goodNode env settings v = false := by
  unfold goodNode
  rw [hf]

/-- `nodeLinks` through a resolved file. -/
theorem nodeLinks_some (env : Env) (v : String) (file : TFile)
    (hf : env.getFileByPath v = some file) :
    nodeLinks env v = env.resolvedLinks file.path := by
  unfold nodeLinks
  rw [hf]

/-! ### Walk lemmas -/

/-- The start of an avoiding walk is not in the avoided set. -/
theorem AvoidPath.head_not_mem {env : Env} {settings : Settings}
    {V : List String} {v x : String}
    (h : AvoidPath env settings V v x) : ¬ v ∈ V := by
  cases h with
  | refl v hv => exact hv
  | cons v w x hv hg hw h => exact hv

/-- The end of an avoiding walk is not in the avoided set. -/
theorem AvoidPath.last_not_mem {env : Env} {settings : Settings}
    {V : List String} {v x : String}
    (h : AvoidPath env settings V v x) : ¬ x ∈ V := by
  induction h with
  | refl v hv => exact hv
  | cons v w x hv hg hw h ih => exact ih

/-- A walk avoiding a larger set avoids a smaller one. -/
theorem AvoidPath.mono {env : Env} {settings : Settings}
    {V W : List String} {v x : String}
    (hVW : ∀ y, y ∈ V → y ∈ W)
    (h : AvoidPath env settings W v x) : AvoidPath env settings V v x := by
  induction h with
  | refl v hv => exact AvoidPath.refl v (fun hm => hv (hVW v hm))
  | cons v w x hv hg hw h ih =>
    exact AvoidPath.cons v w x (fun hm => hv (hVW v hm)) hg hw ih

/-- Avoiding walks compose across a good node and one of its links. -/
theorem AvoidPath.trans_link {env : Env} {settings : Settings}
    {V : List String} {a b c x : String}
    (hab : AvoidPath env settings V a b)
    (hg : goodNode env settings b = true)
    (hc : c ∈ nodeLinks env b)
    (hcx : AvoidPath env settings V c x) :
    AvoidPath env settings V a x := by
  revert hg hc
  induction hab with
  | refl v hv =>
    intro hg hc
    exact AvoidPath.cons v c x hv hg hc hcx
  | cons v w y hv hgv hw h ih =>
    intro hg hc
    exact AvoidPath.cons v w x hv hgv hw (ih hg hc)

/-- One more link appended to an avoiding walk. -/
theorem AvoidPath.append_link {env : Env} {settings : Settings}
    {V : List String} {a b c : String}
    (hab : AvoidPath env settings V a b)
    (hg : goodNode env settings b = true)
    (hc : c ∈ nodeLinks env b) (hcV : ¬ c ∈ V) :
    AvoidPath env settings V a c :=
  AvoidPath.trans_link hab hg hc (AvoidPath.refl c hcV)

/-- Shifting the avoided set by an already-explored region: a walk from
`q` avoiding `V` either ends inside the region `fresh` explored from `p`,
or avoids the whole of `fresh ++ V`. -/
theorem avoidPath_shift {env : Env} {settings : Settings}
    {V fresh : List String} {p q x : String}
    (hchar : ∀ y, y ∈ fresh ↔ AvoidPath env settings V p y)
    (h : AvoidPath env settings V q x) :
    x ∈ fresh ∨ AvoidPath env settings (fresh ++ V) q x := by
  induction h with
  | refl v hv =>
    by_cases hvf : v ∈ fresh
    · exact Or.inl hvf
    · exact Or.inr (AvoidPath.refl v (by
        intro hm
        rcases List.mem_append.mp hm with hm | hm
        · exact hvf hm
        · exact hv hm))
  | cons v w y hv hg hw h ih =>
    rcases ih with ih | ih
    · exact Or.inl ih
    · by_cases hvf : v ∈ fresh
      · refine Or.inl ((hchar y).mpr ?_)
        exact AvoidPath.trans_link ((hchar v).mp hvf) hg hw
          (AvoidPath.mono (fun z hz => List.mem_append.mpr (Or.inr hz)) ih)
      · refine Or.inr (AvoidPath.cons v w y ?_ hg hw ih)
        intro hm
        rcases List.mem_append.mp hm with hm | hm
        · exact hvf hm
        · exact hv hm

/-- Removing a vertex from the avoided set: a walk from `w` avoiding `V`
either already avoids `v :: V`, or ends at `v`, or contains `v`, in which
case its tail past `v` starts at a link of `v`. -/
theorem avoidPath_cut {env : Env} {settings : Settings}
    {V : List String} {v w x : String}
    (h : AvoidPath env settings V w x) :
    AvoidPath env settings (v :: V) w x ∨ x = v ∨
      (goodNode env settings v = true ∧
        ∃ u ∈ nodeLinks env v, AvoidPath env settings (v :: V) u x) := by
  induction h with
  | refl y hy =>
    by_cases hyv : y = v
    · exact Or.inr (Or.inl hyv)
    · exact Or.inl (AvoidPath.refl y (by
        intro hm
        rcases List.mem_cons.mp hm with hm | hm
        · exact hyv hm
        · exact hy hm))
  | cons a w y ha hg hw h ih =>
    rcases ih with ih | ih | ih
    · by_cases hav : a = v
      · subst hav
        exact Or.inr (Or.inr ⟨hg, w, hw, ih⟩)
      · refine Or.inl (AvoidPath.cons a w y ?_ hg hw ih)
        intro hm
        rcases List.mem_cons.mp hm with hm | hm
        · exact hav hm
        · exact ha hm
    · exact Or.inr (Or.inl ih)
    · exact Or.inr (Or.inr ih)

/-! ### The traversal computes the avoid-walk closure -/

/-- Terminal cases of the invariant: an already-visited node explores
nothing; an unvisited bad (missing or excluded) node explores exactly
itself and counts 0. -/
theorem calcAux_spec_easy (env : Env) (settings : Settings) (fuel : Nat)
    (v : String) (V : List String)
    (hcase : v ∈ V ∨ goodNode env settings v = false) :
    ∃ fresh : List String,
      (calcAux env settings fuel v V).2 = fresh ++ V ∧
      fresh.Nodup ∧
      (∀ x, x ∈ fresh ↔ AvoidPath env settings V v x) ∧
      (calcAux env settings fuel v V).1 =
        (fresh.filter (fun y => goodNode env settings y)).length := by
  by_cases hvV : v ∈ V
  · refine ⟨[], ?_, List.nodup_nil, ?_, ?_⟩
    · rw [calcAux_visited env settings fuel v V hvV]
      rfl
    · intro x
      simp only [List.not_mem_nil, false_iff]
      intro hpath
      exact hpath.head_not_mem hvV
    · rw [calcAux_visited env settings fuel v V hvV]
      rfl
  · have hbad : goodNode env settings v = false := by
      rcases hcase with hcase | hcase
      · exact absurd hcase hvV
      · exact hcase
    have hres : calcAux env settings fuel v V = (0, v :: V) := by
      cases hf : env.getFileByPath v with
      | none => exact calcAux_missing env settings fuel v V hvV hf
      | some file =>
        have he : isExcluded env settings (some file) = true := by
          have := goodNode_some env settings v file hf
          rw [hbad] at this
          cases hx : isExcluded env settings (some file) with
          | true => rfl
          | false => rw [hx] at this; cases this
        exact calcAux_excluded env settings fuel v V file hvV hf he
    refine ⟨[v], ?_, List.nodup_singleton v, ?_, ?_⟩
    · rw [hres]
      rfl
    · intro x
      simp only [List.mem_singleton]
      constructor
      · rintro rfl
        exact AvoidPath.refl x hvV
      · intro hpath
        cases hpath with
        | refl _ _ => rfl
        | cons v w x hv hg hw h => rw [hbad] at hg; cases hg
    · rw [hres]
      simp [hbad]

/-- Main invariant of the traversal: given a superset `U` of the relevant
nodes, closed under links out of good nodes, and fuel at least the number
of not-yet-visited nodes of `U`, the traversal from `v ∈ U` marks exactly
the nodes reachable from `v` by walks avoiding the visited set, each
once, and its count is exactly the number of good marked nodes. -/
theorem calcAux_spec (env : Env) (settings : Settings) (U : List String)
    (hclosed : ∀ u ∈ U, goodNode env settings u = true →
      ∀ w ∈ nodeLinks env u, w ∈ U) :
    ∀ (fuel : Nat) (v : String) (V : List String), v ∈ U →
      (U.toFinset \ V.toFinset).card ≤ fuel →
      ∃ fresh : List String,
        (calcAux env settings fuel v V).2 = fresh ++ V ∧
        fresh.Nodup ∧
        (∀ x, x ∈ fresh ↔ AvoidPath env settings V v x) ∧
        (calcAux env settings fuel v V).1 =
          (fresh.filter (fun y => goodNode env settings y)).length := by
  intro fuel
  induction fuel with
  | zero =>
    intro v V hvU hcard
    by_cases hcase : v ∈ V ∨ goodNode env settings v = false
    · exact calcAux_spec_easy env settings 0 v V hcase
    · push_neg at hcase
      obtain ⟨hvV, hgood⟩ := hcase
      simp only [ne_eq, Bool.not_eq_false] at hgood
      exfalso
      have hvmem : v ∈ U.toFinset \ V.toFinset :=
        Finset.mem_sdiff.mpr ⟨List.mem_toFinset.mpr hvU,
          fun hm => hvV (List.mem_toFinset.mp hm)⟩
      have hpos : 0 < (U.toFinset \ V.toFinset).card :=
        Finset.card_pos.mpr ⟨v, hvmem⟩
      omega
  | succ f ih =>
    intro v V hvU hcard
    by_cases hcase : v ∈ V ∨ goodNode env settings v = false
    · exact calcAux_spec_easy env settings (f + 1) v V hcase
    · push_neg at hcase
      obtain ⟨hvV, hgood⟩ := hcase
      simp only [ne_eq, Bool.not_eq_false] at hgood
      obtain ⟨file, hf⟩ : ∃ file, env.getFileByPath v = some file := by
        cases hx : env.getFileByPath v with
        | none => rw [goodNode_none env settings v hx] at hgood; cases hgood
        | some file => exact ⟨file, rfl⟩
      have he : isExcluded env settings (some file) = false := by
        have := goodNode_some env settings v file hf
        rw [hgood] at this
        cases hx : isExcluded env settings (some file) with
        | true => rw [hx] at this; cases this
        | false => rfl
      have hnl : nodeLinks env v = env.resolvedLinks file.path :=
        nodeLinks_some env v file hf
      have hlinks : ∀ p ∈ env.resolvedLinks file.path, p ∈ U := by
        intro p hp
        exact hclosed v hvU hgood p (by rw [hnl]; exact hp)
      have hvmem : v ∈ U.toFinset \ V.toFinset :=
        Finset.mem_sdiff.mpr ⟨List.mem_toFinset.mpr hvU,
          fun hm => hvV (List.mem_toFinset.mp hm)⟩
      -- marking v uses up one unit of fuel
      have hcard' : (U.toFinset \ (v :: V).toFinset).card ≤ f := by
        have herase : U.toFinset \ (v :: V).toFinset =
            (U.toFinset \ V.toFinset).erase v := by
          rw [List.toFinset_cons]
          ext a
          simp only [Finset.mem_sdiff, Finset.mem_erase, Finset.mem_insert,
            List.mem_toFinset]
          tauto
        rw [herase, Finset.card_erase_of_mem hvmem]
        omega
      -- the fold over the outgoing links
      have hfold : ∀ ls : List String, (∀ p ∈ ls, p ∈ U) →
          ∀ (n₀ : Nat) (V₀ : List String),
            (U.toFinset \ V₀.toFinset).card ≤ f →
            ∃ fr : List String,
              (ls.foldl (fun acc linkedPath =>
                let r := calcAux env settings f linkedPath acc.2
                (acc.1 + r.1, r.2)) (n₀, V₀)).2 = fr ++ V₀ ∧
              fr.Nodup ∧
              (∀ x, x ∈ fr ↔ ∃ p ∈ ls, AvoidPath env settings V₀ p x) ∧
              (ls.foldl (fun acc linkedPath =>
                let r := calcAux env settings f linkedPath acc.2
                (acc.1 + r.1, r.2)) (n₀, V₀)).1 =
                n₀ + (fr.filter (fun y => goodNode env settings y)).length := by
        intro ls
        induction ls with
        | nil =>
          intro _ n₀ V₀ _
          exact ⟨[], rfl, List.nodup_nil, by simp, by simp⟩
        | cons p ps ihl =>
          intro hls n₀ V₀ hc₀
          obtain ⟨fr₁, h₁v, h₁nd, h₁ch, h₁ct⟩ :=
            ih p V₀ (hls p (List.mem_cons_self p ps)) hc₀
          rw [List.foldl_cons]
          have hinit : (let r := calcAux env settings f p (n₀, V₀).2
              ((n₀, V₀).1 + r.1, r.2)) =
              (n₀ + (List.filter (fun y => goodNode env settings y) fr₁).length,
                fr₁ ++ V₀) := by
            show (n₀ + (calcAux env settings f p V₀).1,
              (calcAux env settings f p V₀).2) = _
            rw [h₁v, h₁ct]
          rw [hinit]
          have hsub : (U.toFinset \ (fr₁ ++ V₀).toFinset).card ≤
              (U.toFinset \ V₀.toFinset).card := by
            apply Finset.card_le_card
            apply Finset.sdiff_subset_sdiff (le_refl _)
            intro a ha
            rw [List.mem_toFinset] at ha
            rw [List.mem_toFinset, List.mem_append]
            exact Or.inr ha
          obtain ⟨fr₂, h₂v, h₂nd, h₂ch, h₂ct⟩ :=
            ihl (fun q hq => hls q (List.mem_cons_of_mem p hq))
              (n₀ + (fr₁.filter (fun y => goodNode env settings y)).length)
              (fr₁ ++ V₀) (le_trans hsub hc₀)
          refine ⟨fr₂ ++ fr₁, ?_, ?_, ?_, ?_⟩
          · rw [h₂v, List.append_assoc]
          · refine h₂nd.append h₁nd ?_
            intro a ha₂ ha₁
            rcases (h₂ch a).mp ha₂ with ⟨q, _, hpath⟩
            exact hpath.last_not_mem (List.mem_append.mpr (Or.inl ha₁))
          · intro x
            rw [List.mem_append]
            constructor
            · rintro (hx | hx)
              · rcases (h₂ch x).mp hx with ⟨q, hq, hpath⟩
                exact ⟨q, List.mem_cons_of_mem p hq,
                  hpath.mono (fun z hz => List.mem_append.mpr (Or.inr hz))⟩
              · exact ⟨p, List.mem_cons_self p ps, (h₁ch x).mp hx⟩
            · rintro ⟨q, hq, hpath⟩
              rcases List.mem_cons.mp hq with rfl | hq
              · exact Or.inr ((h₁ch x).mpr hpath)
              · rcases avoidPath_shift h₁ch hpath with hx | hx
                · exact Or.inr hx
                · exact Or.inl ((h₂ch x).mpr ⟨q, hq, hx⟩)
          · rw [h₂ct, List.filter_append, List.length_append]
            omega
      obtain ⟨fr, hv2, hnd, hch, hct⟩ :=
        hfold (env.resolvedLinks file.path) hlinks 1 (v :: V) hcard'
      have hgo := calcAux_go env settings f v V file hvV hf he
      refine ⟨fr ++ [v], ?_, ?_, ?_, ?_⟩
      · rw [hgo, hv2, List.append_assoc]
        rfl
      · refine hnd.append (List.nodup_singleton v) ?_
        intro a ha hav
        rcases (hch a).mp ha with ⟨q, _, hpath⟩
        rcases List.mem_singleton.mp hav with rfl
        exact hpath.last_not_mem (List.mem_cons_self a V)
      · intro x
        rw [List.mem_append, List.mem_singleton]
        constructor
        · rintro (hx | rfl)
          · rcases (hch x).mp hx with ⟨q, hq, hpath⟩
            refine AvoidPath.cons v q x hvV hgood (by rw [hnl]; exact hq) ?_
            exact hpath.mono (fun z hz => List.mem_cons_of_mem v hz)
          · exact AvoidPath.refl x hvV
        · intro hpath
          rcases avoidPath_cut (v := v) hpath with hx | hx | ⟨_, u, hu, hx⟩
          · exact absurd (List.mem_cons_self v V) hx.head_not_mem
          · exact Or.inr hx
          · refine Or.inl ((hch x).mpr ⟨u, ?_, hx⟩)
            rw [hnl] at hu
            exact hu
      · rw [hgo, hct, List.filter_append, List.length_append]
        simp [hgood]
        omega

/-! ### The bounded-reachability closure -/

/-- Membership in the next reachability stage. -/
theorem reachWithin_succ_mem (links : String → List String) (root : String)
    (n : Nat) (x : String) :
    x ∈ reachWithin links root (n + 1) ↔
      x ∈ reachWithin links root n ∨
        ∃ v ∈ reachWithin links root n, x ∈ links v := by
  conv_lhs => rw [reachWithin]
  simp [List.mem_dedup, List.mem_append, List.mem_flatMap]

/-- Each stage is contained in the next. -/
theorem reachWithin_mono_succ (links : String → List String) (root : String)
    (n : Nat) (x : String) (h : x ∈ reachWithin links root n) :
    x ∈ reachWithin links root (n + 1) :=
  (reachWithin_succ_mem links root n x).mpr (Or.inl h)

/-- Stages grow with the hop bound. -/
theorem reachWithin_mono_le (links : String → List String) (root : String)
    {n m : Nat} (h : n ≤ m) {x : String} (hx : x ∈ reachWithin links root n) :
    x ∈ reachWithin links root m := by
  induction m with
  | zero =>
    have : n = 0 := Nat.le_zero.mp h
    subst this
    exact hx
  | succ m ihm =>
    by_cases hn : n ≤ m
    · exact reachWithin_mono_succ links root m x (ihm hn)
    · have : n = m + 1 := by omega
      subst this
      exact hx

/-- Every stage is contained in a links-closed set containing the root. -/
theorem reachWithin_subset_of_closed (links : String → List String)
    (root : String) (U : List String) (hroot : root ∈ U)
    (hclosed : ∀ u ∈ U, ∀ w ∈ links u, w ∈ U) :
    ∀ (n : Nat) (x : String), x ∈ reachWithin links root n → x ∈ U := by
  intro n
  induction n with
  | zero =>
    intro x hx
    rw [reachWithin] at hx
    rcases List.mem_singleton.mp hx with rfl
    exact hroot
  | succ n ihn =>
    intro x hx
    rcases (reachWithin_succ_mem links root n x).mp hx with hx | ⟨v, hv, hx⟩
    · exact ihn x hx
    · exact hclosed v (ihn v hv) x hx

/-- Stages with equal member sets have successors with equal member
sets. -/
theorem reachWithin_congr_succ (links : String → List String) (root : String)
    {n m : Nat} (h : ∀ y, y ∈ reachWithin links root n ↔ y ∈ reachWithin links root m) :
    ∀ y, y ∈ reachWithin links root (n + 1) ↔ y ∈ reachWithin links root (m + 1) := by
  intro y
  simp only [reachWithin_succ_mem, h]

/-- Once two consecutive stages agree, all later stages agree with them. -/
theorem reachWithin_stab (links : String → List String) (root : String)
    (n : Nat)
    (h : ∀ y, y ∈ reachWithin links root (n + 1) ↔ y ∈ reachWithin links root n) :
    ∀ m, n ≤ m →
      ∀ y, y ∈ reachWithin links root m ↔ y ∈ reachWithin links root n := by
  intro m
  induction m with
  | zero =>
    intro hm y
    have : n = 0 := Nat.le_zero.mp hm
    subst this
    exact Iff.rfl
  | succ m ihm =>
    intro hm y
    by_cases hn : n ≤ m
    · exact Iff.trans (reachWithin_congr_succ links root (ihm hn) y) (h y)
    · have : n = m + 1 := by omega
      subst this
      exact Iff.rfl

/-- Until stabilization, the number of distinct reached nodes grows with
each stage. -/
theorem reachWithin_growth (links : String → List String) (root : String) :
    ∀ n, (∀ y, y ∈ reachWithin links root (n + 1) ↔ y ∈ reachWithin links root n) ∨
      n + 1 ≤ (reachWithin links root n).toFinset.card := by
  intro n
  induction n with
  | zero =>
    right
    rw [reachWithin]
    simp
  | succ n ihn =>
    have hnext : (∀ y, y ∈ reachWithin links root (n + 1) ↔
        y ∈ reachWithin links root n) ∨
        (reachWithin links root n).toFinset.card <
          (reachWithin links root (n + 1)).toFinset.card := by
      by_cases hs : ∀ y, y ∈ reachWithin links root (n + 1) ↔
          y ∈ reachWithin links root n
      · exact Or.inl hs
      · right
        push_neg at hs
        obtain ⟨y, hy⟩ := hs
        have hy2 : y ∈ reachWithin links root (n + 1) ∧
            ¬ y ∈ reachWithin links root n := by
          rcases hy with ⟨h1, h2⟩ | ⟨h1, h2⟩
          · exact ⟨h1, h2⟩
          · exact absurd (reachWithin_mono_succ links root n y h2) h1
        apply Finset.card_lt_card
        constructor
        · intro a ha
          rw [List.mem_toFinset] at ha
          rw [List.mem_toFinset]
          exact reachWithin_mono_succ links root n a ha
        · intro hsub
          refine hy2.2 ?_
          have := hsub (List.mem_toFinset.mpr hy2.1)
          exact List.mem_toFinset.mp this
    rcases ihn with hstab | hcard
    · left
      exact reachWithin_congr_succ links root hstab
    · rcases hnext with hstab | hlt
      · left
        exact reachWithin_congr_succ links root hstab
      · right
        omega

/-- With a hop bound of at least the size of a links-closed superset, the
stage contains every stage (the closure has stabilized). -/
theorem reachWithin_absorb (links : String → List String) (root : String)
    (U : List String) (hroot : root ∈ U)
    (hclosed : ∀ u ∈ U, ∀ w ∈ links u, w ∈ U)
    {m : Nat} (hm : U.toFinset.card ≤ m) :
    ∀ {n : Nat} {x : String}, x ∈ reachWithin links root n →
      x ∈ reachWithin links root m := by
  intro n x hx
  by_cases hnm : n ≤ m
  · exact reachWithin_mono_le links root hnm hx
  · have hN : ∀ y, y ∈ reachWithin links root (U.toFinset.card + 1) ↔
        y ∈ reachWithin links root U.toFinset.card := by
      rcases reachWithin_growth links root U.toFinset.card with h | h
      · exact h
      · exfalso
        have hsub : (reachWithin links root U.toFinset.card).toFinset ⊆ U.toFinset := by
          intro a ha
          rw [List.mem_toFinset] at ha
          rw [List.mem_toFinset]
          exact reachWithin_subset_of_closed links root U hroot hclosed _ a ha
        have := Finset.card_le_card hsub
        omega
    have hstabm := reachWithin_stab links root U.toFinset.card hN m hm
    have hstabn := reachWithin_stab links root U.toFinset.card hN n (by omega)
    exact (hstabm x).mpr ((hstabn x).mp hx)

/-! ### Relating avoid-walks to the bounded-reachability closure -/

/-- For a good node of a path-coherent environment, the links the
traversal follows are the resolved links of the node key itself. -/
theorem nodeLinks_eq_of_good (env : Env) (settings : Settings) (v : String)
    (hcoh : PathCoherent env) (hg : goodNode env settings v = true) :
    nodeLinks env v = env.resolvedLinks v := by
  cases hf : env.getFileByPath v with
  | none => rw [goodNode_none env settings v hf] at hg; cases hg
  | some file => rw [nodeLinks_some env v file hf, hcoh v file hf]

/-- An avoid-walk endpoint stays inside a set closed under the traversal
links of good nodes. -/
theorem avoidPath_mem_of_closed (env : Env) (settings : Settings) (U : List String)
    (hclosed : ∀ u ∈ U, goodNode env settings u = true →
      ∀ w ∈ nodeLinks env u, w ∈ U) :
    ∀ (V : List String) (w x : String),
      AvoidPath env settings V w x → w ∈ U → x ∈ U := by
  intro V w x h
  induction h with
  | refl v hv => exact id
  | cons v w x hv hg hw h ih =>
    intro hvU
    exact ih (hclosed v hvU hg w hw)

/-- Every avoid-walk endpoint is in some reachability stage. -/
theorem avoidPath_mem_reach (env : Env) (settings : Settings) (root : String)
    (hcoh : PathCoherent env) :
    ∀ (w x : String), AvoidPath env settings [] w x →
      ∀ k, w ∈ reachWithin env.resolvedLinks root k →
        ∃ n, x ∈ reachWithin env.resolvedLinks root n := by
  intro w x h
  induction h with
  | refl v hv =>
    intro k hk
    exact ⟨k, hk⟩
  | cons v w x hv hg hw h ih =>
    intro k hk
    refine ih (k + 1) ?_
    refine (reachWithin_succ_mem _ root k w).mpr (Or.inr ⟨v, hk, ?_⟩)
    rw [nodeLinks_eq_of_good env settings v hcoh hg] at hw
    exact hw

/-- When every node of a links-closed superset is good, every reached
node is the endpoint of an avoid-walk from the root. -/
theorem reach_mem_avoidPath (env : Env) (settings : Settings) (root : String)
    (U : List String) (hcoh : PathCoherent env) (hroot : root ∈ U)
    (hgoodU : ∀ u ∈ U, goodNode env settings u = true)
    (hclosedU : ∀ u ∈ U, ∀ w ∈ env.resolvedLinks u, w ∈ U) :
    ∀ (n : Nat) (x : String), x ∈ reachWithin env.resolvedLinks root n →
      AvoidPath env settings [] root x := by
  intro n
  induction n with
  | zero =>
    intro x hx
    rw [reachWithin] at hx
    rcases List.mem_singleton.mp hx with rfl
    exact AvoidPath.refl x (List.not_mem_nil x)
  | succ n ihn =>
    intro x hx
    rcases (reachWithin_succ_mem _ root n x).mp hx with hx | ⟨v, hv, hx⟩
    · exact ihn x hx
    · have hvU : v ∈ U :=
        reachWithin_subset_of_closed _ root U hroot hclosedU n v hv
      have hg : goodNode env settings v = true := hgoodU v hvU
      refine AvoidPath.trans_link (ihn v hv) hg ?_
        (AvoidPath.refl x (List.not_mem_nil x))
      rw [nodeLinks_eq_of_good env settings v hcoh hg]
      exact hx

/-- The aggregator from the root with an empty visited set. -/
theorem calculateTotalConnectedNodes_root (env : Env) (settings : Settings)
    (root : String) :
    calculateTotalConnectedNodes env settings root [] 0 =
      calcAux env settings (jsOrNat settings.maxDepth 3) root [] := by
  unfold calculateTotalConnectedNodes
  rw [Nat.sub_zero]

/-- The count of the aggregator, when every node of a links-closed
superset `U` of the reachable set exists and is unexcluded, and the
effective depth bound is at least `|U|`: it is exactly the number of
distinct nodes reachable from the root within the bound, and the visited
set holds each visited node once. -/
theorem calc_count_of_closed (env : Env) (settings : Settings) (root : String)
    (U : List String) (hcoh : PathCoherent env) (hroot : root ∈ U)
    (hgoodU : ∀ u ∈ U, goodNode env settings u = true)
    (hclosedU : ∀ u ∈ U, ∀ w ∈ env.resolvedLinks u, w ∈ U)
    (hM : U.toFinset.card ≤ jsOrNat settings.maxDepth 3) :
    (calculateTotalConnectedNodes env settings root [] 0).1 =
      (reachWithin env.resolvedLinks root
        (jsOrNat settings.maxDepth 3)).toFinset.card ∧
    (calculateTotalConnectedNodes env settings root [] 0).2.Nodup := by
  have hclosedN : ∀ u ∈ U, goodNode env settings u = true →
      ∀ w ∈ nodeLinks env u, w ∈ U := by
    intro u hu hg w hw
    rw [nodeLinks_eq_of_good env settings u hcoh hg] at hw
    exact hclosedU u hu w hw
  have hcard0 : (U.toFinset \ ([] : List String).toFinset).card ≤
      jsOrNat settings.maxDepth 3 := by
    simpa using hM
  obtain ⟨fresh, hv2, hnd, hch, hct⟩ :=
    calcAux_spec env settings U hclosedN (jsOrNat settings.maxDepth 3)
      root [] hroot hcard0
  rw [calculateTotalConnectedNodes_root]
  have hfreshU : ∀ x ∈ fresh, x ∈ U := by
    intro x hx
    exact avoidPath_mem_of_closed env settings U hclosedN [] root x
      ((hch x).mp hx) hroot
  have hfilter : fresh.filter (fun y => goodNode env settings y) = fresh :=
    List.filter_eq_self.mpr (fun a ha => hgoodU a (hfreshU a ha))
  have hsets : fresh.toFinset =
      (reachWithin env.resolvedLinks root (jsOrNat settings.maxDepth 3)).toFinset := by
    ext x
    rw [List.mem_toFinset, List.mem_toFinset]
    constructor
    · intro hx
      obtain ⟨n, hn⟩ := avoidPath_mem_reach env settings root hcoh root x
        ((hch x).mp hx) 0 (by rw [reachWithin]; exact List.mem_singleton_self root)
      exact reachWithin_absorb env.resolvedLinks root U hroot hclosedU hM hn
    · intro hx
      exact (hch x).mpr
        (reach_mem_avoidPath env settings root U hcoh hroot hgoodU hclosedU _ x hx)
  constructor
  · rw [hct, hfilter, ← hsets, List.toFinset_card_of_nodup hnd]
  · rw [hv2, List.append_nil]
    exact hnd

/-! ### Environment congruence (iteration order of links) -/

/-- The exclusion evaluator reads the environment only through the
metadata cache and the regex tester. -/
theorem isExcluded_env_congr (env₁ env₂ : Env) (settings : Settings)
    (hcache : env₁.getFileCache = env₂.getFileCache)
    (hregex : env₁.regexTest = env₂.regexTest) (file : Option TFile) :
    isExcluded env₁ settings file = isExcluded env₂ settings file := by
  unfold isExcluded
  rw [hcache, hregex]

/-- Goodness of a node is insensitive to link iteration order. -/
theorem goodNode_env_congr (env₁ env₂ : Env) (settings : Settings)
    (hfile : env₁.getFileByPath = env₂.getFileByPath)
    (hcache : env₁.getFileCache = env₂.getFileCache)
    (hregex : env₁.regexTest = env₂.regexTest) (v : String) :
    goodNode env₁ settings v = goodNode env₂ settings v := by
  unfold goodNode
  rw [hfile]
  simp only [isExcluded_env_congr env₁ env₂ settings hcache hregex]

/-- Traversal links have the same members under permuted link lists. -/
theorem nodeLinks_env_congr (env₁ env₂ : Env)
    (hfile : env₁.getFileByPath = env₂.getFileByPath)
    (hperm : ∀ p, (env₁.resolvedLinks p).Perm (env₂.resolvedLinks p))
    (v x : String) :
    x ∈ nodeLinks env₁ v ↔ x ∈ nodeLinks env₂ v := by
  unfold nodeLinks
  rw [hfile]
  cases env₂.getFileByPath v with
  | none => exact Iff.rfl
  | some file => exact (hperm file.path).mem_iff

/-- Avoid-walks transfer between environments with the same files,
metadata, and link sets. -/
theorem avoidPath_env_mono (env₁ env₂ : Env) (settings : Settings)
    (hgood : ∀ v, goodNode env₁ settings v = goodNode env₂ settings v)
    (hlinks : ∀ v x, x ∈ nodeLinks env₁ v ↔ x ∈ nodeLinks env₂ v) :
    ∀ (V : List String) (v x : String),
      AvoidPath env₁ settings V v x → AvoidPath env₂ settings V v x := by
  intro V v x h
  induction h with
  | refl v hv => exact AvoidPath.refl v hv
  | cons v w x hv hg hw h ih =>
    exact AvoidPath.cons v w x hv (by rw [← hgood]; exact hg)
      ((hlinks v w).mp hw) ih

/-! ### Claims C1, C2, C3 — the reachability aggregator -/

/-- A rank function strictly decreasing along links certifies
acyclicity. -/
theorem acyclic_of_rank (env : Env) (rank : String → Nat)
    (h : ∀ v w, StepTo env v w → rank w < rank v) : Acyclic env := by
  intro v hv
  have hlt : ∀ a b, Relation.TransGen (StepTo env) a b → rank b < rank a := by
    intro a b hab
    induction hab with
    | single h1 => exact h _ _ h1
    | tail hab h1 ih => exact lt_trans (h _ _ h1) ih
  exact lt_irrefl _ (hlt v v hv)

/-- The diamond graph is acyclic. -/
theorem diamond_acyclic : Acyclic diamondEnv := by
  apply acyclic_of_rank diamondEnv (fun p =>
    if p = "root" then 3 else if p = "A" then 2 else if p = "B" then 1 else 0)
  intro v w h
  have h2 : w ∈ diamondLinks v := h
  unfold diamondLinks at h2
  split_ifs at h2 with h3 h4 h5
  · subst h3
    simp only [List.mem_cons, List.not_mem_nil, or_false] at h2
    rcases h2 with rfl | rfl <;> decide
  · subst h4
    rcases List.mem_singleton.mp h2 with rfl
    decide
  · subst h5
    rcases List.mem_singleton.mp h2 with rfl
    decide
  · cases h2

/-- C1 counterexample: the diamond graph `root → A, root → B, A → B,
B → C` is acyclic, every reachable node exists and is unexcluded, and
`maxDepth = 2`, yet the aggregator returns 3 while 4 distinct nodes are
reachable within 2 hops — the visited set blocks the short route to `C`
after `B` was first reached at the depth cap. -/
theorem c1_counterexample :
    Acyclic diamondEnv ∧
    (∀ v ∈ reachWithin diamondEnv.resolvedLinks "root" 4,
      goodNode diamondEnv (settingsDepth 2) v = true) ∧
    (calculateTotalConnectedNodes diamondEnv (settingsDepth 2) "root" [] 0).1 = 3 ∧
    (reachWithin diamondEnv.resolvedLinks "root"
      (jsOrNat (settingsDepth 2).maxDepth 3)).toFinset.card = 4 :=
  ⟨diamond_acyclic, by decide, by decide, by decide⟩

/-- C1 (amended): for every acyclic link graph, every links-closed finite
superset `U` of the reachable set whose nodes all exist and are
unexcluded, and every configuration whose effective `maxDepth` is at
least the number of distinct nodes of `U` (so the depth cap cannot
truncate the traversal), the aggregator returns exactly the number of
distinct nodes reachable from the root within `maxDepth` hops, counting
the root. -/
theorem c1_theorem (env : Env) (settings : Settings) (root : String)
    (U : List String)
    (_hacyc : Acyclic env) (hcoh : PathCoherent env) (hroot : root ∈ U)
    (hgoodU : ∀ u ∈ U, goodNode env settings u = true)
    (hclosedU : ∀ u ∈ U, ∀ w ∈ env.resolvedLinks u, w ∈ U)
    (hM : U.toFinset.card ≤ jsOrNat settings.maxDepth 3) :
    (calculateTotalConnectedNodes env settings root [] 0).1 =
      (reachWithin env.resolvedLinks root
        (jsOrNat settings.maxDepth 3)).toFinset.card :=
  (calc_count_of_closed env settings root U hcoh hroot hgoodU hclosedU hM).1

/-- C1 witness: the diamond graph with `maxDepth = 10` (at least its 4
nodes): the aggregator returns exactly the number of distinct reachable
nodes. -/
theorem c1_witness :
    Acyclic diamondEnv ∧ PathCoherent diamondEnv ∧
    "root" ∈ diamondKeys ∧
    (∀ u ∈ diamondKeys, goodNode diamondEnv (settingsDepth 10) u = true) ∧
    (∀ u ∈ diamondKeys, ∀ w ∈ diamondEnv.resolvedLinks u, w ∈ diamondKeys) ∧
    diamondKeys.toFinset.card ≤ jsOrNat (settingsDepth 10).maxDepth 3 ∧
    (calculateTotalConnectedNodes diamondEnv (settingsDepth 10) "root" [] 0).1 =
      (reachWithin diamondEnv.resolvedLinks "root"
        (jsOrNat (settingsDepth 10).maxDepth 3)).toFinset.card :=
  ⟨diamond_acyclic, envOfKeys_coherent diamondKeys diamondLinks, by decide, by decide,
   by decide, by decide,
   c1_theorem diamondEnv (settingsDepth 10) "root" diamondKeys diamond_acyclic
     (envOfKeys_coherent diamondKeys diamondLinks) (by decide) (by decide)
     (by decide) (by decide)⟩

/-- The two link orders of the diamond graph are permutations of each
other at every node. -/
theorem diamond_swapped_perm :
    ∀ v, (diamondEnv.resolvedLinks v).Perm (diamondEnvSwapped.resolvedLinks v) := by
  intro v
  show (diamondLinks v).Perm (if v = "root" then ["B", "A"] else diamondLinks v)
  by_cases hv : v = "root"
  · subst hv
    rw [if_pos rfl]
    unfold diamondLinks
    rw [if_pos rfl]
    decide
  · rw [if_neg hv]

/-- C2 counterexample: the diamond graph under `maxDepth = 2`, with the
outgoing links of `root` iterated as `[A, B]` versus `[B, A]` (the same
link sets, permuted): the aggregation returns 3 in the first order and 4
in the second. -/
theorem c2_counterexample :
    diamondEnv.getFileByPath = diamondEnvSwapped.getFileByPath ∧
    diamondEnv.getFileCache = diamondEnvSwapped.getFileCache ∧
    (∀ v, (diamondEnv.resolvedLinks v).Perm (diamondEnvSwapped.resolvedLinks v)) ∧
    (calculateTotalConnectedNodes diamondEnv (settingsDepth 2) "root" [] 0).1 = 3 ∧
    (calculateTotalConnectedNodes diamondEnvSwapped (settingsDepth 2) "root" [] 0).1 = 4 :=
  ⟨rfl, rfl, diamond_swapped_perm, by decide, by decide⟩

/-- C2 (amended): the aggregation is invariant under the iteration order
of each node's outgoing-link set **provided the effective `maxDepth` is
at least the size of a links-closed finite superset of the relevant
nodes** (so the depth cap cannot truncate); when the cap binds, different
orders can produce different values (see the counterexample). -/
theorem c2_theorem (env₁ env₂ : Env) (settings : Settings) (root : String)
    (U : List String)
    (hfile : env₁.getFileByPath = env₂.getFileByPath)
    (hcache : env₁.getFileCache = env₂.getFileCache)
    (hregex : env₁.regexTest = env₂.regexTest)
    (hperm : ∀ v, (env₁.resolvedLinks v).Perm (env₂.resolvedLinks v))
    (hroot : root ∈ U)
    (hclosed : ∀ u ∈ U, goodNode env₁ settings u = true →
      ∀ w ∈ nodeLinks env₁ u, w ∈ U)
    (hM : U.toFinset.card ≤ jsOrNat settings.maxDepth 3) :
    (calculateTotalConnectedNodes env₁ settings root [] 0).1 =
      (calculateTotalConnectedNodes env₂ settings root [] 0).1 := by
  have hgood : ∀ v, goodNode env₁ settings v = goodNode env₂ settings v :=
    goodNode_env_congr env₁ env₂ settings hfile hcache hregex
  have hlinks : ∀ v x, x ∈ nodeLinks env₁ v ↔ x ∈ nodeLinks env₂ v :=
    nodeLinks_env_congr env₁ env₂ hfile hperm
  have hclosed₂ : ∀ u ∈ U, goodNode env₂ settings u = true →
      ∀ w ∈ nodeLinks env₂ u, w ∈ U := by
    intro u hu hg w hw
    exact hclosed u hu (by rw [hgood]; exact hg) w ((hlinks u w).mpr hw)
  have hcard0 : (U.toFinset \ ([] : List String).toFinset).card ≤
      jsOrNat settings.maxDepth 3 := by
    simpa using hM
  obtain ⟨fr₁, h₁v, h₁nd, h₁ch, h₁ct⟩ :=
    calcAux_spec env₁ settings U hclosed (jsOrNat settings.maxDepth 3)
      root [] hroot hcard0
  obtain ⟨fr₂, h₂v, h₂nd, h₂ch, h₂ct⟩ :=
    calcAux_spec env₂ settings U hclosed₂ (jsOrNat settings.maxDepth 3)
      root [] hroot hcard0
  rw [calculateTotalConnectedNodes_root, calculateTotalConnectedNodes_root,
    h₁ct, h₂ct]
  have hmem : ∀ x, x ∈ fr₁ ↔ x ∈ fr₂ := by
    intro x
    rw [h₁ch, h₂ch]
    constructor
    · exact avoidPath_env_mono env₁ env₂ settings hgood hlinks [] root x
    · refine avoidPath_env_mono env₂ env₁ settings (fun v => (hgood v).symm) ?_ [] root x
      intro v y
      exact (hlinks v y).symm
  have hpermf : fr₁.Perm fr₂ := (List.perm_ext_iff_of_nodup h₁nd h₂nd).mpr hmem
  have hfun : (fun y => goodNode env₁ settings y) =
      (fun y => goodNode env₂ settings y) := funext hgood
  rw [hfun]
  exact (hpermf.filter (fun y => goodNode env₂ settings y)).length_eq

/-- C2 witness: the diamond graph with its two link orders and
`maxDepth = 10`: the two aggregations agree. -/
theorem c2_witness :
    diamondEnv.getFileByPath = diamondEnvSwapped.getFileByPath ∧
    diamondEnv.getFileCache = diamondEnvSwapped.getFileCache ∧
    diamondEnv.regexTest = diamondEnvSwapped.regexTest ∧
    (∀ v, (diamondEnv.resolvedLinks v).Perm (diamondEnvSwapped.resolvedLinks v)) ∧
    "root" ∈ diamondKeys ∧
    (∀ u ∈ diamondKeys, goodNode diamondEnv (settingsDepth 10) u = true →
      ∀ w ∈ nodeLinks diamondEnv u, w ∈ diamondKeys) ∧
    diamondKeys.toFinset.card ≤ jsOrNat (settingsDepth 10).maxDepth 3 ∧
    (calculateTotalConnectedNodes diamondEnv (settingsDepth 10) "root" [] 0).1 =
      (calculateTotalConnectedNodes diamondEnvSwapped (settingsDepth 10) "root" [] 0).1 :=
  ⟨rfl, rfl, rfl, diamond_swapped_perm, by decide, by decide, by decide,
   c2_theorem diamondEnv diamondEnvSwapped (settingsDepth 10) "root" diamondKeys
     rfl rfl rfl diamond_swapped_perm (by decide) (by decide) (by decide)⟩

/-- A good node resolves to an unexcluded file. -/
theorem goodNode_elim (env : Env) (settings : Settings) (v : String)
    (hg : goodNode env settings v = true) :
    ∃ file, env.getFileByPath v = some file ∧
      isExcluded env settings (some file) = false := by
  cases hx : env.getFileByPath v with
  | none => rw [goodNode_none env settings v hx] at hg; cases hg
  | some file =>
    refine ⟨file, rfl, ?_⟩
    have := goodNode_some env settings v file hx
    rw [hg] at this
    cases hy : isExcluded env settings (some file) with
    | true => rw [hy] at this; cases this
    | false => rfl

/-- Unconditionally — for every graph, cyclic or not, with or without
missing or excluded nodes, and any fuel — the traversal extends the
visited set by a duplicate-free block of previously unvisited nodes: no
node is ever visited twice. -/
theorem calcAux_fresh (env : Env) (settings : Settings) :
    ∀ (fuel : Nat) (v : String) (V : List String),
      ∃ fresh : List String,
        (calcAux env settings fuel v V).2 = fresh ++ V ∧
        fresh.Nodup ∧ ∀ x ∈ fresh, ¬ x ∈ V := by
  intro fuel
  induction fuel with
  | zero =>
    intro v V
    by_cases hcase : v ∈ V ∨ goodNode env settings v = false
    · obtain ⟨fresh, h1, h2, h3, _⟩ := calcAux_spec_easy env settings 0 v V hcase
      exact ⟨fresh, h1, h2, fun x hx => ((h3 x).mp hx).last_not_mem⟩
    · push_neg at hcase
      obtain ⟨hvV, hgood⟩ := hcase
      simp only [ne_eq, Bool.not_eq_false] at hgood
      obtain ⟨file, hf, he⟩ := goodNode_elim env settings v hgood
      rw [calcAux_cap env settings v V file hvV hf he]
      refine ⟨[v], rfl, List.nodup_singleton v, ?_⟩
      intro x hx
      rcases List.mem_singleton.mp hx with rfl
      exact hvV
  | succ f ih =>
    intro v V
    by_cases hcase : v ∈ V ∨ goodNode env settings v = false
    · obtain ⟨fresh, h1, h2, h3, _⟩ := calcAux_spec_easy env settings (f + 1) v V hcase
      exact ⟨fresh, h1, h2, fun x hx => ((h3 x).mp hx).last_not_mem⟩
    · push_neg at hcase
      obtain ⟨hvV, hgood⟩ := hcase
      simp only [ne_eq, Bool.not_eq_false] at hgood
      obtain ⟨file, hf, he⟩ := goodNode_elim env settings v hgood
      rw [calcAux_go env settings f v V file hvV hf he]
      have hfold : ∀ (ls : List String) (n₀ : Nat) (V₀ : List String),
          ∃ fr : List String,
            (ls.foldl (fun acc linkedPath =>
              let r := calcAux env settings f linkedPath acc.2
              (acc.1 + r.1, r.2)) (n₀, V₀)).2 = fr ++ V₀ ∧
            fr.Nodup ∧ ∀ x ∈ fr, ¬ x ∈ V₀ := by
        intro ls
        induction ls with
        | nil =>
          intro n₀ V₀
          exact ⟨[], rfl, List.nodup_nil, by simp⟩
        | cons p ps ihl =>
          intro n₀ V₀
          obtain ⟨fr₁, h₁v, h₁nd, h₁dj⟩ := ih p V₀
          rw [List.foldl_cons]
          have hinit : (let r := calcAux env settings f p (n₀, V₀).2
              ((n₀, V₀).1 + r.1, r.2)) =
              (n₀ + (calcAux env settings f p V₀).1, fr₁ ++ V₀) := by
            show (n₀ + (calcAux env settings f p V₀).1,
              (calcAux env settings f p V₀).2) = _
            rw [h₁v]
          rw [hinit]
          obtain ⟨fr₂, h₂v, h₂nd, h₂dj⟩ :=
            ihl (n₀ + (calcAux env settings f p V₀).1) (fr₁ ++ V₀)
          refine ⟨fr₂ ++ fr₁, ?_, ?_, ?_⟩
          · rw [h₂v, List.append_assoc]
          · refine h₂nd.append h₁nd ?_
            intro a ha₂ ha₁
            exact h₂dj a ha₂ (List.mem_append.mpr (Or.inl ha₁))
          · intro x hx
            rcases List.mem_append.mp hx with hx | hx
            · exact fun hxV => h₂dj x hx (List.mem_append.mpr (Or.inr hxV))
            · exact h₁dj x hx
      obtain ⟨fr, hv2, hnd, hdj⟩ := hfold (env.resolvedLinks file.path) 1 (v :: V)
      refine ⟨fr ++ [v], ?_, ?_, ?_⟩
      · rw [hv2, List.append_assoc]
        rfl
      · refine hnd.append (List.nodup_singleton v) ?_
        intro a ha hav
        rcases List.mem_singleton.mp hav with rfl
        exact hdj a ha (List.mem_cons_self a V)
      · intro x hx
        rcases List.mem_append.mp hx with hx | hx
        · exact fun hxV => hdj x hx (List.mem_cons_of_mem v hxV)
        · rcases List.mem_singleton.mp hx with rfl
          exact hvV

/-- C3 counterexample: the diamond graph with the back edge `C → root`
has a cycle through the root; with `maxDepth = 2` the traversal
terminates and returns 3, but 4 distinct nodes are reachable within the
depth bound — termination and no-double-counting hold, the claimed exact
count does not. -/
theorem c3_counterexample :
    Relation.TransGen (StepTo cycleEnv) "root" "root" ∧
    (∀ v ∈ reachWithin cycleEnv.resolvedLinks "root" 4,
      goodNode cycleEnv (settingsDepth 2) v = true) ∧
    (calculateTotalConnectedNodes cycleEnv (settingsDepth 2) "root" [] 0).1 = 3 ∧
    (reachWithin cycleEnv.resolvedLinks "root"
      (jsOrNat (settingsDepth 2).maxDepth 3)).toFinset.card = 4 := by
  refine ⟨?_, by decide, by decide, by decide⟩
  have h1 : StepTo cycleEnv "root" "A" := by unfold StepTo; decide
  have h2 : StepTo cycleEnv "A" "B" := by unfold StepTo; decide
  have h3 : StepTo cycleEnv "B" "C" := by unfold StepTo; decide
  have h4 : StepTo cycleEnv "C" "root" := by unfold StepTo; decide
  exact ((Relation.TransGen.single h1).tail h2 |>.tail h3).tail h4

/-- C3 (amended): for every link graph — cyclic through the root or not,
with or without missing or excluded nodes, for every configuration — the
traversal from the root terminates (it is a total function) and visits
no node twice: the visited set it returns is duplicate-free.  Moreover,
whenever every node of a links-closed finite superset `U` of the
reachable set exists and is unexcluded and the effective `maxDepth` is
at least the number of nodes of `U`, the returned value equals the
number of distinct nodes reachable within the depth bound. -/
theorem c3_theorem :
    (∀ (env : Env) (settings : Settings) (root : String),
      (calculateTotalConnectedNodes env settings root [] 0).2.Nodup) ∧
    (∀ (env : Env) (settings : Settings) (root : String) (U : List String),
      PathCoherent env → root ∈ U →
      (∀ u ∈ U, goodNode env settings u = true) →
      (∀ u ∈ U, ∀ w ∈ env.resolvedLinks u, w ∈ U) →
      U.toFinset.card ≤ jsOrNat settings.maxDepth 3 →
      (calculateTotalConnectedNodes env settings root [] 0).1 =
        (reachWithin env.resolvedLinks root
          (jsOrNat settings.maxDepth 3)).toFinset.card) := by
  constructor
  · intro env settings root
    rw [calculateTotalConnectedNodes_root]
    obtain ⟨fresh, hv, hnd, _⟩ :=
      calcAux_fresh env settings (jsOrNat settings.maxDepth 3) root []
    rw [hv, List.append_nil]
    exact hnd
  · intro env settings root U hcoh hroot hgoodU hclosedU hM
    exact (calc_count_of_closed env settings root U hcoh hroot hgoodU hclosedU hM).1

/-- C3 witness: the cyclic graph: the visited set of the traversal is
duplicate-free, and with `maxDepth = 10` the aggregator returns the
number of distinct reachable nodes despite the cycle. -/
theorem c3_witness :
    (calculateTotalConnectedNodes cycleEnv (settingsDepth 2) "root" [] 0).2.Nodup ∧
    PathCoherent cycleEnv ∧ "root" ∈ diamondKeys ∧
    (∀ u ∈ diamondKeys, goodNode cycleEnv (settingsDepth 10) u = true) ∧
    (∀ u ∈ diamondKeys, ∀ w ∈ cycleEnv.resolvedLinks u, w ∈ diamondKeys) ∧
    diamondKeys.toFinset.card ≤ jsOrNat (settingsDepth 10).maxDepth 3 ∧
    (calculateTotalConnectedNodes cycleEnv (settingsDepth 10) "root" [] 0).1 =
      (reachWithin cycleEnv.resolvedLinks "root"
        (jsOrNat (settingsDepth 10).maxDepth 3)).toFinset.card :=
  ⟨c3_theorem.1 cycleEnv (settingsDepth 2) "root",
   envOfKeys_coherent diamondKeys _, by decide, by decide, by decide, by decide,
   c3_theorem.2 cycleEnv (settingsDepth 10) "root" diamondKeys
     (envOfKeys_coherent diamondKeys _) (by decide) (by decide) (by decide)
     (by decide)⟩
